import Mathlib

/-!
Verification of the dual-format message encoder and signer abstraction of the
ao-core-libs repository (field encoder `hbEncodeValue`, field flattener
`hbEncodeLift`, multipart body builder `toHBRequest`, signature-base builder
`toSigBaseArgs`/`toHttpSigner`, binary-item builder `toANS104Request` /
`toDataItemSigner`, and the signer-identifier derivation `httpSigName`).

The JavaScript/TypeScript source is shallowly embedded:
* JS strings are modelled as `List Char` (`Str`), byte sequences as `List Nat`
  (`Bytes`, each entry a byte value).
* JS objects are modelled as insertion-ordered association lists
  (`objSet` updates an existing key in place and appends new keys, matching
  JS property assignment; `Object.entries` order is the list order).
* Fallible code (JS `throw`) returns `Except`.
* The external cryptographic primitives (SHA-256 digest, RSA sign/verify) and
  the external `arbundles` / `http-message-signatures` libraries are abstracted
  as explicit function parameters (`dig`, `verify`, `canon`), exactly the
  black-box collaborators the design document declares out of scope.
-/

abbrev Str := List Char
abbrev Bytes := List Nat

/-- ASCII lowercase of one character, as `String.prototype.toLowerCase`
behaves on the ASCII range (the only range the protocol strings use). -/
def lowChar (c : Char) : Char :=
  if 65 ≤ c.toNat ∧ c.toNat ≤ 90 then Char.ofNat (c.toNat + 32) else c

/-- `toLowerCase` on the `List Char` string model. -/
def lowStr (s : Str) : Str := s.map lowChar

/-- JS `String.prototype.includes` for a single character. -/
def containsChar (s : Str) (c : Char) : Bool := s.any (fun x => x = c)

/-- UTF-8 encoding of one character (JS `Buffer.byteLength` and `TextEncoder`
count/produce these bytes). -/
def utf8Char (c : Char) : Bytes :=
  let n := c.toNat
  if n < 128 then [n]
  else if n < 2048 then [192 + n / 64, 128 + n % 64]
  else if n < 65536 then [224 + n / 4096, 128 + (n / 64) % 64, 128 + n % 64]
  else [240 + n / 262144, 128 + (n / 4096) % 64, 128 + (n / 64) % 64, 128 + n % 64]

/-- UTF-8 bytes of a string; `Buffer.byteLength s = (utf8 s).length`. -/
def utf8 (s : Str) : Bytes := (s.map utf8Char).flatten

/-- Least-significant-digit loop for decimal rendering, with a step budget
that is always sufficient (`n + 1` divisions by ten reach zero). -/
def natDigitsCore : Nat → Nat → Str → Str
  | 0, _, acc => acc
  | fuel + 1, n, acc =>
      if n < 10 then Char.ofNat (48 + n) :: acc
      else natDigitsCore fuel (n / 10) (Char.ofNat (48 + n % 10) :: acc)

/-- Decimal digits of a natural number, as JS number-to-string rendering. -/
def natDigits (n : Nat) : Str := natDigitsCore (n + 1) n []

/-- JS rendering of an integer. -/
def intToStr (n : Int) : Str :=
  if n < 0 then '-' :: natDigits n.natAbs else natDigits n.natAbs

/-- Join a list of strings with a separator (JS `Array.prototype.join`). -/
def joinSep (sep : Str) (xs : List Str) : Str := List.intercalate sep xs

/-- JS property write on an insertion-ordered object: an existing key is
updated in place, a new key is appended. -/
def objSet (m : List (Str × α)) (k : Str) (v : α) : List (Str × α) :=
  match m with
  | [] => [(k, v)]
  | (k2, v2) :: rest => if k2 = k then (k, v) :: rest else (k2, v2) :: objSet rest k v

/-- JS property read. -/
def objGet (m : List (Str × α)) (k : Str) : Option α :=
  (m.find? (fun e => e.1 = k)).map (fun e => e.2)

/-- The keys of an object, in entry order (`Object.keys`). -/
def objKeys (m : List (Str × α)) : List Str := m.map (fun e => e.1)

/-- A JavaScript value, as the encoder's runtime type probing distinguishes
them: `null` also stands for `undefined` (the source only ever tests
`val == null`), `float` carries its JS decimal rendering as data, and `sym`
carries the symbol description. -/
inductive JSVal where
  | null
  | bool (b : Bool)
  | str (s : Str)
  | bytes (bs : Bytes)
  | int (n : Int)
  | float (render : Str)
  | sym (description : Option Str)
  | arr (elems : List JSVal)
  | obj (fields : List (Str × JSVal))

/-- An encoded field value: a string or a byte sequence
(the `string | Uint8Array` payload of `hbEncodeValue`). -/
inductive EncVal where
  | s (v : Str)
  | b (v : Bytes)
deriving DecidableEq

/-- `isPojo` of the source: a plain object (not bytes, not an array,
not `null`). -/
def isPojoB : JSVal → Bool
  | .obj _ => true
  | _ => false

mutual
/-- JS `String(value)` coercion, element by element for arrays
(`Array.prototype.toString` joins with a comma and renders `null` as the
empty string). -/
def jsValToString : JSVal → Str
  | .null => "null".data
  | .bool true => "true".data
  | .bool false => "false".data
  | .str s => s
  | .bytes bs => joinSep ",".data (bs.map natDigits)
  | .int n => intToStr n
  | .float r => r
  | .sym d => "Symbol(".data ++ d.getD [] ++ ")".data
  | .arr xs => joinSep ",".data (jsArrElemStrings xs)
  | .obj _ => "[object Object]".data

/-- The per-element rendering of `Array.prototype.toString`. -/
def jsArrElemStrings : List JSVal → List Str
  | [] => []
  | .null :: rest => [] :: jsArrElemStrings rest
  | v :: rest => jsValToString v :: jsArrElemStrings rest
end

/-- JS string coercion of an encoded value (template-literal interpolation of
a `string | Uint8Array`: a `Uint8Array` renders as comma-joined decimals). -/
def jsStrOfEnc : EncVal → Str
  | .s v => v
  | .b bs => joinSep ",".data (bs.map natDigits)

/-- Byte size of an encoded value, as `hbEncodeLift` measures it
(`Buffer.byteLength` for strings, `byteLength` for bytes). -/
def encSize : EncVal → Nat
  | .s v => (utf8 v).length
  | .b bs => bs.length

/-- `hasNewline` of the source on an encoded value: a string is searched for
the newline character, bytes for the byte 10. -/
def hasNewlineEnc : EncVal → Bool
  | .s v => containsChar v '\n'
  | .b bs => bs.any (fun x => x = 10)

mutual
/-- `hbEncodeValue` of the source: encode a value into a
`[type, encoded]` tuple, throwing on unsupported runtime types. -/
def hbEncodeValue : JSVal → Except Str (Option Str × Option EncVal)
  | .bytes bs =>
      if bs.length = 0 then .ok (none, some (.s []))
      else .ok (none, some (.b bs))
  | .str s =>
      if s.length = 0 then .ok (none, some (.s []))
      else .ok (none, some (.s s))
  | .arr xs =>
      if xs.length = 0 then .ok (some "empty-list".data, none)
      else do
        let parts ← hbEncodeParts xs
        .ok (some "list".data, some (.s (joinSep ",".data parts)))
  | .int n => .ok (some "integer".data, some (.s (intToStr n)))
  | .float r => .ok (some "float".data, some (.s r))
  | .sym d => .ok (some "atom".data, some (.s (d.getD [])))
  | v => .error ("Cannot encode value: ".data ++ jsValToString v)

/-- The element loop of `hbEncodeValue` for arrays: encode each element,
default a missing tag to `binary`, skip elements with no encoding, and
render each as `(ao-type-<tag>) <value>`. -/
def hbEncodeParts : List JSVal → Except Str (List Str)
  | [] => .ok []
  | v :: rest => do
      let te ← hbEncodeValue v
      let restParts ← hbEncodeParts rest
      match te.2 with
      | none => .ok restParts
      | some e =>
          .ok (("(ao-type-".data ++ (te.1.getD "binary".data) ++ ") ".data
                ++ jsStrOfEnc e) :: restParts)
end

instance [DecidableEq ε] [DecidableEq α] : DecidableEq (Except ε α) := fun
  | .ok a, .ok b =>
      if h : a = b then isTrue (by rw [h])
      else isFalse (by intro he; cases he; exact h rfl)
  | .ok _, .error _ => isFalse (by intro h; cases h)
  | .error _, .ok _ => isFalse (by intro h; cases h)
  | .error a, .error b =>
      if h : a = b then isTrue (by rw [h])
      else isFalse (by intro he; cases he; exact h rfl)

/-! ## Field Flattener: `hbEncodeLift` -/

/-- `MAX_HEADER_LENGTH` of the source: the 4096-byte header size ceiling. -/
def MAX_HEADER_LENGTH : Nat := 4096

/-- A value of the Flattened Field Set: either an encoded field, or a nested
flattened group (`top[parent] = flatObj` in the source) whose members are
already-encoded fields. -/
inductive LiftedVal where
  | enc (e : EncVal)
  | group (m : List (Str × EncVal))
deriving DecidableEq

/-- The flat key computation of `hbEncodeLift`:
`parent ? (parent + "/" + key).toLowerCase() : key.toLowerCase()`. -/
def flatKeyOf (parent key : Str) : Str :=
  if parent.isEmpty then lowStr key else lowStr (parent ++ '/' :: key)

/-- The array-of-POJOs conversion of `hbEncodeLift`: an array becomes an
object keyed by decimal element index. -/
def toIndexed : Nat → List JSVal → List (Str × JSVal)
  | _, [] => []
  | i, v :: rest => (natDigits i, v) :: toIndexed (i + 1) rest

/-- One scalar step of the `hbEncodeLift` reduce loop: encode the value; an
encoded value larger than `MAX_HEADER_LENGTH` is lifted to `top` under the
lowercase flat key, otherwise kept in `flat` under the original key; a truthy
type tag is recorded in `types` under the original key. -/
def hbLiftStep (key flatKey : Str) (v : JSVal)
    (flat : List (Str × EncVal)) (types : List (Str × Str))
    (top : List (Str × LiftedVal)) :
    Except Str (List (Str × EncVal) × List (Str × Str) × List (Str × LiftedVal)) := do
  let te ← hbEncodeValue v
  let ft :=
    match te.2 with
    | none => (flat, top)
    | some e =>
        if encSize e > MAX_HEADER_LENGTH then (flat, objSet top flatKey (.enc e))
        else (objSet flat key e, top)
  let types2 :=
    match te.1 with
    | some t => if t.isEmpty then types else objSet types key t
    | none => types
  .ok (ft.1, types2, ft.2)

/-- The tail of `hbEncodeLift` after the reduce loop: the early return for an
empty `flat` at the top level, the synthesized `ao-types` field (itself
subject to the size rule), and the attachment of `flat` — under the parent
key for a nested level, merged by `Object.assign` at the top level. -/
def hbLiftFinish (parent : Str) (flat : List (Str × EncVal))
    (types : List (Str × Str)) (top : List (Str × LiftedVal)) :
    List (Str × LiftedVal) :=
  if flat.isEmpty && parent.isEmpty then top
  else
    let ft :=
      if types.isEmpty then (flat, top)
      else
        let aoTypes := joinSep ",".data
          (types.map (fun e => lowStr e.1 ++ "=".data ++ e.2))
        if (utf8 aoTypes).length > MAX_HEADER_LENGTH then
          (flat,
           objSet top
             (if parent.isEmpty then "ao-types".data else parent ++ "/ao-types".data)
             (.enc (.s aoTypes)))
        else (objSet flat "ao-types".data (.s aoTypes), top)
    if parent.isEmpty then
      List.foldl (fun t e => objSet t e.1 (.enc e.2)) ft.2 ft.1
    else objSet ft.2 parent (.group ft.1)

/-- `hbEncodeLift` of the source, with an explicit step budget (`fuel`) that
makes the recursion over the nested object structure syntactically
terminating; every recursive call of the source decrements it once, and the
public wrapper `hbEncodeLift` supplies a budget larger than the input's node
count, so the budget never runs out on the embedded code paths.
Arguments mirror the source: the entries still to process at this level, the
`parent` path, the `flat`/`types` accumulators of the reduce loop, and the
shared output accumulator `top`. -/
def hbLift : Nat → List (Str × JSVal) → Str → List (Str × EncVal) →
    List (Str × Str) → List (Str × LiftedVal) →
    Except Str (List (Str × LiftedVal))
  | 0, _, _, _, _, _ => .error "hbEncodeLift: step budget exhausted".data
  | _ + 1, [], parent, flat, types, top => .ok (hbLiftFinish parent flat types top)
  | fuel + 1, (key, val) :: rest, parent, flat, types, top =>
    match val with
    | .null => hbLift fuel rest parent flat types top
    | .obj m => do
        let top2 ← hbLift fuel m (flatKeyOf parent key) [] [] top
        hbLift fuel rest parent flat types top2
    | .arr xs =>
        if xs.any isPojoB then do
          let top2 ← hbLift fuel (toIndexed 0 xs) (flatKeyOf parent key) [] [] top
          hbLift fuel rest parent flat types top2
        else do
          let st ← hbLiftStep key (flatKeyOf parent key) (.arr xs) flat types top
          hbLift fuel rest parent st.1 st.2.1 st.2.2
    | v => do
        let st ← hbLiftStep key (flatKeyOf parent key) v flat types top
        hbLift fuel rest parent st.1 st.2.1 st.2.2

mutual
/-- Node count of a JS value, used only to compute a generous step budget for
`hbLift`. -/
def jsSizeV : JSVal → Nat
  | .obj m => 1 + jsSizeE m
  | .arr xs => 1 + jsSizeL xs
  | _ => 1

/-- Node count of a list of JS values. -/
def jsSizeL : List JSVal → Nat
  | [] => 1
  | v :: rest => 1 + jsSizeV v + jsSizeL rest

/-- Node count of the entries of a JS object. -/
def jsSizeE : List (Str × JSVal) → Nat
  | [] => 1
  | e :: rest => 1 + jsSizeV e.2 + jsSizeE rest
end

/-- `hbEncodeLift(obj)` as called by `toHBRequest`: flatten a field map into
the Flattened Field Set. -/
def hbEncodeLift (obj : List (Str × JSVal)) : Except Str (List (Str × LiftedVal)) :=
  hbLift (jsSizeE obj + 1) obj [] [] [] []

/-! ## Multipart Body Builder: `toHBRequest` -/

/-- The two-byte CRLF line terminator as characters. -/
def crlf : Str := "\r\n".data

/-- The two-byte CRLF line terminator as bytes. -/
def crlfB : Bytes := [13, 10]

/-- The `needsBody` test of `toHBRequest` for a scalar flattened field:
`hasNewline(value) || key.includes('/') || Buffer.byteLength(String(value)) > MAX_HEADER_LENGTH`. -/
def scalarNeedsBody (k : Str) (e : EncVal) : Bool :=
  hasNewlineEnc e || containsChar k '/' ||
    decide ((utf8 (jsStrOfEnc e)).length > MAX_HEADER_LENGTH)

/-- `Headers.append`: header names are normalized to lowercase; the new entry
is appended (JS combines duplicates on read; the claims below only need
membership, so entries are kept separate). -/
def happend (h : List (Str × Str)) (name value : Str) : List (Str × Str) :=
  h ++ [(lowStr name, value)]

/-- `Headers.delete`: remove every entry with the normalized name. -/
def hdelete (h : List (Str × Str)) (name : Str) : List (Str × Str) :=
  h.filter (fun e => decide (e.1 ≠ lowStr name))

/-- `Headers.set`: replace any entry with the normalized name. -/
def hset (h : List (Str × Str)) (name value : Str) : List (Str × Str) :=
  hdelete h name ++ [(lowStr name, value)]

/-- Byte-wise lexicographic order on strings (JS default sort order and the
`Headers` iteration order for the ASCII header names used here). -/
def leChars : Str → Str → Bool
  | [], _ => true
  | _ :: _, [] => false
  | a :: as, b :: bs =>
    if a.toNat < b.toNat then true
    else if b.toNat < a.toNat then false
    else leChars as bs

/-- `Headers` iteration: one entry per distinct name, names in ascending
byte order, duplicate values combined with a comma and a space. -/
def hIter (h : List (Str × Str)) : List (Str × Str) :=
  (List.insertionSort (fun a b => leChars a b = true) (h.map (fun e => e.1)).dedup).map
    (fun n => (n, joinSep ", ".data ((h.filter (fun e => e.1 = n)).map (fun e => e.2))))

/-- One character of the standard base64 alphabet. -/
def b64Char (n : Nat) : Char :=
  if n < 26 then Char.ofNat (65 + n)
  else if n < 52 then Char.ofNat (97 + (n - 26))
  else if n < 62 then Char.ofNat (48 + (n - 52))
  else if n = 62 then '+' else '/'

/-- Standard base64 encoding with padding, three input bytes per group. -/
def b64Encode : Bytes → Str
  | [] => []
  | [a] => [b64Char (a / 4), b64Char (a % 4 * 16), '=', '=']
  | [a, b] => [b64Char (a / 4), b64Char (a % 4 * 16 + b / 16), b64Char (b % 16 * 4), '=']
  | a :: b :: c :: rest =>
      b64Char (a / 4) :: b64Char (a % 4 * 16 + b / 16) ::
      b64Char (b % 16 * 4 + c / 64) :: b64Char (c % 64) :: b64Encode rest

/-- `encodeBase64Url` of the source: standard base64, then `+`→`-`, `/`→`_`,
and the trailing padding stripped (`=` appears only as trailing padding, so a
filter is equivalent to the source's `replace(/=+$/, '')`). -/
def encodeBase64Url (bs : Bytes) : Str :=
  ((b64Encode bs).map (fun c => if c = '+' then '-' else if c = '/' then '_' else c)).filter
    (fun c => decide (c ≠ '='))

/-- The `Blob` conversion applied to `obj.data` in the single-body-part
branch of `toHBRequest` (`new Blob([obj.data])`): byte views pass through
raw, anything else is string-coerced (`undefined` renders as the literal text
`undefined`), and a symbol throws. -/
def blobOfData : Option JSVal → Except Str Bytes
  | none => .ok (utf8 "undefined".data)
  | some v =>
    match v with
    | .null => .ok (utf8 "null".data)
    | .str s => .ok (utf8 s)
    | .bytes bs => .ok bs
    | .sym _ => .error "Cannot convert a Symbol value to a string".data
    | w => .ok (utf8 (jsValToString w))

/-- The content-disposition prefix wrapped around a scalar Body Part
(`content-disposition: form-data; name="<key>"` followed by a blank line). -/
def cdHeaderFor (k : Str) : Str :=
  "content-disposition: form-data; name=\"".data ++ k ++ "\"\r\n\r\n".data

/-- `encodePart` of the source: a named section holding a nested request's
headers (in `Headers` iteration order) and optional body. -/
def encodePartBytes (k : Str) (headers : List (Str × Str)) (body : Option Bytes) : Bytes :=
  utf8 ("content-disposition: form-data; name=\"".data ++ k ++ "\"\r\n".data)
  ++ ((hIter headers).map (fun e => utf8 (e.1 ++ ": ".data ++ e.2 ++ crlf))).flatten
  ++ (match body with
      | none => []
      | some b => utf8 crlf ++ b)

/-- The result of `toHBRequest`: a header list and an optional body. -/
structure HBRequestOut where
  headers : List (Str × Str)
  body : Option Bytes
deriving DecidableEq

/-- A nested flattened group re-read as a plain object, as `toHBRequest`
recurses on it (`toHBRequest(value as POJO)`): its members are the
already-encoded strings and byte views. -/
def groupToObj (m : List (Str × EncVal)) : List (Str × JSVal) :=
  m.map (fun e => (e.1, match e.2 with | .s v => JSVal.str v | .b bs => JSVal.bytes bs))

mutual
/-- `toHBRequest` of the source with an explicit step budget and the SHA-256
digest abstracted as `dig`: returns `none` (JS `undefined`) for an empty
field map, otherwise flattens the map, partitions it into header and body
parts, and assembles the inline or multipart body with its
`Content-Digest`. -/
def toHBRequestFuel : Nat → (Bytes → Bytes) → List (Str × JSVal) →
    Except Str (Option HBRequestOut)
  | 0, _, _ => .error "toHBRequest: step budget exhausted".data
  | fuel + 1, dig, obj =>
    if obj.isEmpty then .ok none
    else do
      let flattened ← hbEncodeLift obj
      let hb ← hbSplit fuel dig flattened
      let headers := hb.1.foldl (fun h e => happend h e.1 e.2) []
      match hb.2 with
      | [] => .ok (some ⟨headers, none⟩)
      | [(k, _)] => do
          let single ← blobOfData (objGet obj "data".data)
          let headers := happend headers "inline-body-key".data k
          let headers := hdelete headers k
          let headers := happend headers "Content-Digest".data
            ("sha-256=:".data ++ encodeBase64Url (dig single) ++ ":".data)
          .ok (some ⟨headers, some single⟩)
      | parts => do
          let bufs := parts.map (fun e => e.2)
          let base := List.intercalate crlfB bufs
          let boundary := encodeBase64Url (dig base)
          let body :=
            (bufs.map (fun b => utf8 ("--".data ++ boundary ++ crlf) ++ b ++ utf8 crlf)).flatten
            ++ utf8 ("--".data ++ boundary ++ "--".data)
          let headers := hset headers "Content-Type".data
            ("multipart/form-data; boundary=\"".data ++ boundary ++ "\"".data)
          let headers := happend headers "Content-Digest".data
            ("sha-256=:".data ++ encodeBase64Url (dig body) ++ ":".data)
          .ok (some ⟨headers, some body⟩)

/-- The per-entry loop of `toHBRequest`: nested groups recurse (and are
dropped entirely when the recursion returns `undefined`), scalars are
classified by `scalarNeedsBody`; returns the header entries (key with
string-coerced value, in entry order) and the body parts (key with section
bytes, in entry order). -/
def hbSplit : Nat → (Bytes → Bytes) → List (Str × LiftedVal) →
    Except Str (List (Str × Str) × List (Str × Bytes))
  | 0, _, _ => .error "toHBRequest: step budget exhausted".data
  | fuel + 1, dig, entries =>
    match entries with
    | [] => .ok ([], [])
    | (k, .group m) :: rest => do
        let hb ← hbSplit fuel dig rest
        let sub ← toHBRequestFuel fuel dig (groupToObj m)
        match sub with
        | none => .ok hb
        | some r => .ok (hb.1, (k, encodePartBytes k r.headers r.body) :: hb.2)
    | (k, .enc e) :: rest => do
        let hb ← hbSplit fuel dig rest
        if scalarNeedsBody k e then
          .ok (hb.1, (k, utf8 (cdHeaderFor k) ++ utf8 (jsStrOfEnc e)) :: hb.2)
        else .ok ((k, jsStrOfEnc e) :: hb.1, hb.2)
end

/-- `toHBRequest(obj)` with the digest primitive `dig` injected; the step
budget is generous for the input's node count and is never exhausted on the
embedded code paths. -/
def toHBRequest (dig : Bytes → Bytes) (obj : List (Str × JSVal)) :
    Except Str (Option HBRequestOut) :=
  toHBRequestFuel (jsSizeE obj * 4 + 16) dig obj

/-! ## Signature Base Builder: `toSigBaseArgs` and `toHttpSigner` -/

/-- HTTP token characters, the characters `new Headers(...)` accepts in a
header name: digits, letters, and the fifteen specials
`! # $ % & ' * + - . ^ _ \x60 | ~`. -/
def isTokenChar (c : Char) : Bool :=
  let n := c.toNat
  decide ((48 ≤ n ∧ n ≤ 57) ∨ (65 ≤ n ∧ n ≤ 90) ∨ (97 ≤ n ∧ n ≤ 122) ∨
    n ∈ [33, 35, 36, 37, 38, 39, 42, 43, 45, 46, 94, 95, 96, 124, 126])

/-- A valid HTTP header name: nonempty and made of token characters
(`new Headers` throws a `TypeError` otherwise). -/
def validHeaderName (s : Str) : Bool := !s.isEmpty && s.all isTokenChar

/-- The output of `toSigBaseArgs`: the signable field names and the
normalized header record. -/
structure SigBaseOut where
  fields : List Str
  reqHeaders : List (Str × Str)
deriving DecidableEq

/-- `toSigBaseArgs` of the source: normalize the headers through a `Headers`
object into a lowercase record, then sort the header names, together with
`@path` when `includePath` is set, into the signable `fields`. -/
def toSigBaseArgs (headers : List (Str × Str)) (includePath : Bool) :
    Except Str SigBaseOut :=
  if headers.all (fun e => validHeaderName e.1) then
    let hdrRecord := hIter (headers.foldl (fun h e => happend h e.1 e.2) [])
    .ok { fields := List.insertionSort (fun a b => leChars a b = true)
            (objKeys hdrRecord ++ (if includePath then ["@path".data] else [])),
          reqHeaders := hdrRecord }
  else .error "invalid header name".data

/-- Wrap a component name in double quotes, as the signature-base entries
carry their field names. -/
def quoteStr (s : Str) : Str := '"' :: (s ++ ['"'])

/-- The signature-base list built inside `toHttpSigner`'s `create` callback:
one `(field, canonical value)` entry per signable field in order (the
external `httpbis.createSignatureBase`, abstracted by `canon`), with the
serialized `@signature-params` entry pushed last. -/
def signatureBaseList (fields : List Str) (canon : Str → Str) (sigInput : Str) :
    List (Str × Str) :=
  fields.map (fun f => (quoteStr f, canon f))
    ++ [(quoteStr "@signature-params".data, sigInput)]

/-! ## Signer identifier: `httpSigName` -/

/-- The base64 value of one character (after the url-safe replacements). -/
def b64Val (c : Char) : Option Nat :=
  let n := c.toNat
  if 65 ≤ n ∧ n ≤ 90 then some (n - 65)
  else if 97 ≤ n ∧ n ≤ 122 then some (n - 97 + 26)
  else if 48 ≤ n ∧ n ≤ 57 then some (n - 48 + 52)
  else if c = '+' then some 62
  else if c = '/' then some 63
  else none

/-- `atob` on a padded base64 string, four characters at a time; a character
outside the alphabet throws. -/
def decodeB64Groups : Str → Except Str Bytes
  | [] => .ok []
  | a :: b :: c :: d :: rest => do
      match b64Val a, b64Val b with
      | some va, some vb =>
          let rest2 ←
            (match c, d with
             | '=', '=' => if rest.isEmpty then .ok [] else .error "invalid base64".data
             | _, '=' =>
                match b64Val c with
                | some vc =>
                    if rest.isEmpty then .ok [vb % 16 * 16 + vc / 4]
                    else .error "invalid base64".data
                | none => .error "invalid base64".data
             | _, _ =>
                match b64Val c, b64Val d with
                | some vc, some vd => do
                    let tail ← decodeB64Groups rest
                    .ok ((vb % 16 * 16 + vc / 4) :: (vc % 4 * 64 + vd) :: tail)
                | _, _ => .error "invalid base64".data)
          .ok ((va * 4 + vb / 16) :: rest2)
      | _, _ => .error "invalid base64".data
  | _ => .error "invalid base64".data

/-- `decodeBase64UrlToBytes` of the source: pad to a multiple of four,
replace the url-safe characters, and decode with `atob`. -/
def decodeBase64UrlToBytes (s : Str) : Except Str Bytes :=
  let replaced := s.map (fun c => if c = '-' then '+' else if c = '_' then '/' else c)
  let pad := (4 - replaced.length % 4) % 4
  decodeB64Groups (replaced ++ List.replicate pad '=')

/-- `byte.toString(16).padStart(2, '0')`. -/
def hexByte (n : Nat) : Str :=
  let hexDigit := fun m => if m < 10 then Char.ofNat (48 + m) else Char.ofNat (97 + (m - 10))
  [hexDigit (n / 16 % 16), hexDigit (n % 16)]

/-- JS `TypedArray.subarray(i, j)`: the elements with index in `[i, j)`,
clamped to the array. -/
def subarrayB (bs : Bytes) (i j : Nat) : Bytes := (bs.take j).drop i

/-- `httpSigName` of the source: decode the base64url address and derive the
signer identifier from `decoded.subarray(1, 9)`, hex-encoded and prefixed
with `http-sig-`. -/
def httpSigName (address : Str) : Except Str Str := do
  let decoded ← decodeBase64UrlToBytes address
  .ok ("http-sig-".data ++ ((subarrayB decoded 1 9).map hexByte).flatten)

/-! ## Binary Item Builder: `toANS104Request` -/

/-- The reserved field names excluded from tag conversion
(`excludeList` of the source, matched against lowercased keys). -/
def excludeList : List Str :=
  ["target".data, "anchor".data, "data".data, "data-protocol".data,
   "variant".data, "dryrun".data, "type".data, "path".data, "method".data]

/-- The keys removed from the field map by the destructuring
`const { target = '', anchor = '', data = '', Type, Variant, ...rest }`
(exact-case property names). -/
def destructuredKeys : List Str :=
  ["target".data, "anchor".data, "data".data, "Type".data, "Variant".data]

/-- JS nullish coalescing `v ?? d` on an optionally-present property. -/
def nullish (v : Option JSVal) (d : JSVal) : JSVal :=
  match v with
  | none => d
  | some .null => d
  | some w => w

/-- The dynamic-tag loop of the current `toANS104Request` (helpers'
data-item revision): each entry of `rest` is pushed once inside the
exclusion check and then pushed again unconditionally, so a non-reserved key
yields two tags and a reserved key yields one. -/
def dynamicTags (rest : List (Str × JSVal)) : List (Str × JSVal) :=
  (rest.map (fun e =>
    let tag := (e.1, JSVal.str (jsValToString e.2))
    if excludeList.contains (lowStr e.1) then [tag] else [tag, tag])).flatten

/-- The dynamic-tag construction of the earlier `toANS104Request` revision in
the repository: filter the reserved keys out, then map each remaining entry
to exactly one `(name, String(value))` tag. -/
def dynamicTagsLegacy (rest : List (Str × JSVal)) : List (Str × JSVal) :=
  (rest.filter (fun e => !(excludeList.contains (lowStr e.1)))).map
    (fun e => (e.1, JSVal.str (jsValToString e.2)))

/-- The `{ target, anchor, tags, data }` item assembled by
`toANS104Request`. -/
structure ANS104Item where
  target : JSVal
  anchor : JSVal
  tags : List (Str × JSVal)
  data : JSVal

/-- `toANS104Request`'s result: codec headers plus the unsigned item. -/
structure ANS104Request where
  headers : List (Str × Str)
  item : ANS104Item

/-- The three fixed tags appended after the dynamic tags. -/
def fixedTags (fields : List (Str × JSVal)) : List (Str × JSVal) :=
  [("Data-Protocol".data, .str "ao".data),
   ("Type".data, nullish (objGet fields "Type".data) (.str "Message".data)),
   ("Variant".data, nullish (objGet fields "Variant".data) (.str "ao.N.1".data))]

/-- `toANS104Request` of the current data-item helper: strip the
destructured keys, convert the remaining entries to dynamic tags (with the
duplicate push), and append the fixed `Data-Protocol` / `Type` / `Variant`
tags. -/
def toANS104Request (fields : List (Str × JSVal)) : ANS104Request :=
  let rest := fields.filter (fun e => !(destructuredKeys.contains e.1))
  { headers := [("Content-Type".data, "application/ans104".data),
                ("codec-device".data, "ans104@1.0".data)],
    item := { target := nullish (objGet fields "target".data) (.str [])
              anchor := nullish (objGet fields "anchor".data) (.str [])
              tags := dynamicTags rest ++ fixedTags fields
              data := nullish (objGet fields "data".data) (.str []) } }

/-- The earlier repository revision of `toANS104Request`, identical except
that its dynamic tags are filtered and mapped exactly once per key. -/
def toANS104RequestLegacy (fields : List (Str × JSVal)) : ANS104Request :=
  let rest := fields.filter (fun e => !(destructuredKeys.contains e.1))
  { headers := [("Content-Type".data, "application/ans104".data),
                ("codec-device".data, "ans104@1.0".data)],
    item := { target := nullish (objGet fields "target".data) (.str [])
              anchor := nullish (objGet fields "anchor".data) (.str [])
              tags := dynamicTagsLegacy rest ++ fixedTags fields
              data := nullish (objGet fields "data".data) (.str []) } }

/-! ## Data-item signing pipeline: `toDataItemSigner` and `toHttpSigner` -/

/-- The error conditions of the signing pipelines: the repository's
`ErrorCode` members plus the two JS runtime errors its buffer handling can
raise. -/
inductive AOErr where
  | CRYPTO_CREATE_NOT_INVOKED
  | CRYPTO_MISSING_SIGNATURE
  | CRYPTO_INVALID_SIGNATURE
  | JS_TYPE_ERROR
  | JS_RANGE_ERROR
deriving DecidableEq

/-- The resolved value of the low-level signer: optional `id`/`raw` (the
delegated passthrough shape) and optional `signature` bytes. -/
structure SignerRes where
  id : Option Str
  raw : Option Bytes
  signature : Option Bytes
deriving DecidableEq

/-- JS truthiness of an optionally-present string property (the empty string
is falsy). -/
def jsTruthyStr : Option Str → Bool
  | none => false
  | some s => !s.isEmpty

/-- What `toDataItemSigner` returns: the passthrough result, or a freshly
assembled `{ id, raw }` artifact. -/
inductive DataItemOut where
  | pass (r : SignerRes)
  | made (id : Str) (raw : Bytes)
deriving DecidableEq

/-- `TypedArray.set(src, offset)`: overwrite `dst` from `offset` on with
`src` (the caller checks the `RangeError` bound). -/
def spliceAt (offset : Nat) (src dst : Bytes) : Bytes :=
  dst.take offset ++ src ++ dst.drop (offset + src.length)

/-- The code of `toDataItemSigner` after `await signer(...)` resolves with
`res`: the `create`-invoked guard, the `id`/`raw` passthrough, the missing
signature guard, the splice of the signature at byte offset 2 into the
unsigned buffer built by `create` (`unsignedBytes`; `none` when `create` ran
only in passthrough mode, making the JS `.set` call throw), the
`validateSignatureData` length window of 64 to 2048 bytes, the local `VERIFY`
gate, and the identifier `base64url(DIGEST(rawSig))`. -/
def toDataItemSignerFinish (createCalled : Bool) (unsignedBytes : Option Bytes)
    (res : SignerRes) (verify : Bytes → Bool) (dig : Bytes → Bytes) :
    Except AOErr DataItemOut :=
  if !createCalled then .error .CRYPTO_CREATE_NOT_INVOKED
  else if jsTruthyStr res.id && res.raw.isSome then .ok (.pass res)
  else
    match res.signature with
    | none => .error .CRYPTO_MISSING_SIGNATURE
    | some rawSig =>
      match unsignedBytes with
      | none => .error .JS_TYPE_ERROR
      | some ub =>
        if 2 + rawSig.length > ub.length then .error .JS_RANGE_ERROR
        else
          let signedBytes := spliceAt 2 rawSig ub
          if rawSig.length < 64 || rawSig.length > 2048 then .error .CRYPTO_INVALID_SIGNATURE
          else if !(verify signedBytes) then .error .CRYPTO_INVALID_SIGNATURE
          else .ok (.made (encodeBase64Url (dig rawSig)) signedBytes)

/-- The code of `toHttpSigner` after `await signer(...)` resolves: the
`create`-invoked guard, the missing-signature guard, then the splice of the
signature into new headers under the `httpSigName` identifier (the external
`httpbis.augmentHeaders` is abstracted as `augment`; a bad base64url address
makes the identifier derivation throw). -/
def toHttpSignerFinish (createCalled : Bool) (signature : Option Bytes)
    (address : Str) (augment : Bytes → Str → List (Str × Str)) :
    Except AOErr (List (Str × Str)) :=
  if !createCalled then .error .CRYPTO_CREATE_NOT_INVOKED
  else
    match signature with
    | none => .error .CRYPTO_MISSING_SIGNATURE
    | some sig =>
      match httpSigName address with
      | .error _ => .error .JS_TYPE_ERROR
      | .ok name => .ok (augment sig name)

mutual
/-- Every key appearing in a JS value at any nesting depth (after the
array-of-POJOs conversion, whose own index keys are digit strings). -/
def keysAllV : JSVal → List Str
  | .obj m => keysAllE m
  | .arr xs => keysAllL xs
  | _ => []

/-- Keys at any depth inside a list of JS values. -/
def keysAllL : List JSVal → List Str
  | [] => []
  | v :: rest => keysAllV v ++ keysAllL rest

/-- Keys at any depth inside a list of object entries. -/
def keysAllE : List (Str × JSVal) → List Str
  | [] => []
  | e :: rest => e.1 :: (keysAllV e.2 ++ keysAllE rest)
end

/-! ## Claim theorems -/

/-- C8 counterexample: on the empty byte-sequence input, `hbEncodeValue`
returns no type tag at all (`undefined`) together with the empty string, not
the `binary` tag the claim states. -/
theorem hbEncodeValue_emptyBytes_cex :
    hbEncodeValue (.bytes []) = .ok (none, some (.s []))
    ∧ hbEncodeValue (.bytes []) ≠ .ok (some "binary".data, some (.s [])) := by
  decide

/-- C8 amended: for the empty byte-sequence input, `hbEncodeValue` returns
the untagged pair of no type tag (`undefined`) and the empty string as the
encoded value. -/
theorem hbEncodeValue_emptyBytes :
    hbEncodeValue (.bytes []) = .ok (none, some (.s [])) := by decide

/-- C6 counterexample: for the address decoding to bytes `0..9`, the signer
identifier hex-encodes bytes 1 through 8 of the decoded address, which
differs from the hex encoding of its first 8 bytes that the claim states. -/
theorem httpSigName_cex :
    httpSigName "AAECAwQFBgcICQ".data = .ok "http-sig-0102030405060708".data
    ∧ decodeBase64UrlToBytes "AAECAwQFBgcICQ".data = .ok [0, 1, 2, 3, 4, 5, 6, 7, 8, 9]
    ∧ "http-sig-".data ++ (([0, 1, 2, 3, 4, 5, 6, 7, 8, 9].take 8).map hexByte).flatten
        = "http-sig-0001020304050607".data
    ∧ ("http-sig-0102030405060708".data : Str) ≠ "http-sig-0001020304050607".data := by
  decide

/-- C6 amended: for every address whose base64url decoding succeeds, the
signer identifier equals `http-sig-` followed by the hex encoding of the
eight bytes after the first byte of the decoded address (indices 1 through
8), the first byte being skipped. -/
theorem httpSigName_skips_first_byte (address : Str) (bs : Bytes)
    (h : decodeBase64UrlToBytes address = .ok bs) :
    httpSigName address
      = .ok ("http-sig-".data ++ (((bs.drop 1).take 8).map hexByte).flatten) := by
  unfold httpSigName
  rw [h]
  show Except.ok ("http-sig-".data ++ ((subarrayB bs 1 9).map hexByte).flatten) = _
  unfold subarrayB
  rw [List.drop_take]

/-- Witness for the C6 amended theorem at a concrete address. -/
theorem httpSigName_skips_first_byte_witness :
    httpSigName "AAECAwQFBgcICQ".data
      = .ok ("http-sig-".data
             ++ ((([0, 1, 2, 3, 4, 5, 6, 7, 8, 9].drop 1).take 8).map hexByte).flatten) :=
  httpSigName_skips_first_byte "AAECAwQFBgcICQ".data [0, 1, 2, 3, 4, 5, 6, 7, 8, 9] (by decide)

/-- C1: at the field map with the single non-reserved key `Foo`, the current
`toANS104Request` emits the `Foo` tag twice (the loop pushes it inside the
exclusion check and then again unconditionally), where the claim requires
exactly one; the earlier repository revision emits it exactly once; a
reserved-named key such as `dryrun` still leaks one tag through the
unconditional push; the three fixed tags do close the list. -/
theorem toANS104Request_duplicate_tags_bug :
    ((toANS104Request [("Foo".data, .str "Bar".data)]).item.tags.filter
        (fun t => t.1 = "Foo".data)).length = 2
    ∧ (toANS104Request [("Foo".data, .str "Bar".data)]).item.tags.map (fun t => t.1)
        = ["Foo".data, "Foo".data, "Data-Protocol".data, "Type".data, "Variant".data]
    ∧ ((toANS104RequestLegacy [("Foo".data, .str "Bar".data)]).item.tags.filter
        (fun t => t.1 = "Foo".data)).length = 1
    ∧ ((toANS104Request [("dryrun".data, .str "yes".data)]).item.tags.filter
        (fun t => t.1 = "dryrun".data)).length = 1
    ∧ ((toANS104RequestLegacy [("dryrun".data, .str "yes".data)]).item.tags.filter
        (fun t => t.1 = "dryrun".data)).length = 0 := by
  decide

/-- C2: on the non-passthrough path (the signer result does not carry a
truthy `id` together with `raw`), whenever the local `VERIFY` over the
signature-spliced buffer returns `false`, `toDataItemSigner` fails with
`CRYPTO_INVALID_SIGNATURE` and returns no artifact (the out-of-window
signature lengths rejected by `validateSignatureData` just before the
`VERIFY` call raise the same error code). -/
theorem toDataItemSigner_verify_failure_fatal
    (ub rawSig : Bytes) (res : SignerRes) (verify : Bytes → Bool) (dig : Bytes → Bytes)
    (hpass : ¬(jsTruthyStr res.id = true ∧ res.raw.isSome = true))
    (hsig : res.signature = some rawSig)
    (hlen : 2 + rawSig.length ≤ ub.length)
    (hver : verify (spliceAt 2 rawSig ub) = false) :
    toDataItemSignerFinish true (some ub) res verify dig
      = .error .CRYPTO_INVALID_SIGNATURE := by
  unfold toDataItemSignerFinish
  have hp : (jsTruthyStr res.id && res.raw.isSome) = false := by
    rcases h1 : jsTruthyStr res.id <;> rcases h2 : res.raw.isSome <;> simp_all
  rw [hsig]
  simp only [Bool.not_true, if_false, hp, hver]
  have hnr : ¬(2 + rawSig.length > ub.length) := by omega
  simp [hnr]

/-- Witness for C2 at a concrete run: a 64-byte signature, a 70-byte
unsigned buffer, and a verifier that rejects. -/
theorem toDataItemSigner_verify_failure_fatal_witness :
    toDataItemSignerFinish true (some (List.replicate 70 0))
      ⟨none, none, some (List.replicate 64 1)⟩ (fun _ => false) (fun _ => [])
      = .error .CRYPTO_INVALID_SIGNATURE :=
  toDataItemSigner_verify_failure_fatal (List.replicate 70 0) (List.replicate 64 1)
    ⟨none, none, some (List.replicate 64 1)⟩ (fun _ => false) (fun _ => [])
    (by decide) rfl (by decide) rfl

/-- C4: in both signing pipelines, a signer that resolves without invoking
`create` fails with the create-not-invoked error; a signer that invoked
`create` but returned no signature (and, on the data-item path, no truthy
`id`/`raw` passthrough) fails with the missing-signature error; each failing
path is an `Except.error`, so no signed artifact is produced. -/
theorem signer_contract_guards (sigOpt : Option Bytes) (address : Str)
    (augment : Bytes → Str → List (Str × Str)) (ub : Option Bytes)
    (res : SignerRes) (verify : Bytes → Bool) (dig : Bytes → Bytes) :
    (toHttpSignerFinish false sigOpt address augment = .error .CRYPTO_CREATE_NOT_INVOKED)
    ∧ (toDataItemSignerFinish false ub res verify dig = .error .CRYPTO_CREATE_NOT_INVOKED)
    ∧ (toHttpSignerFinish true none address augment = .error .CRYPTO_MISSING_SIGNATURE)
    ∧ (¬(jsTruthyStr res.id = true ∧ res.raw.isSome = true) → res.signature = none →
        toDataItemSignerFinish true ub res verify dig = .error .CRYPTO_MISSING_SIGNATURE) := by
  refine ⟨rfl, rfl, rfl, fun hpass hsig => ?_⟩
  unfold toDataItemSignerFinish
  have hp : (jsTruthyStr res.id && res.raw.isSome) = false := by
    rcases h1 : jsTruthyStr res.id <;> rcases h2 : res.raw.isSome <;> simp_all
  rw [hsig]
  simp [hp]

/-- Witness for C4 at concrete runs of both pipelines. -/
theorem signer_contract_guards_witness :
    (toHttpSignerFinish false (some [1]) "x".data (fun _ _ => [])
       = .error .CRYPTO_CREATE_NOT_INVOKED)
    ∧ (toDataItemSignerFinish true none ⟨none, none, none⟩ (fun _ => true) (fun _ => [])
       = .error .CRYPTO_MISSING_SIGNATURE) :=
  ⟨(signer_contract_guards (some [1]) "x".data (fun _ _ => []) none
      ⟨none, none, none⟩ (fun _ => true) (fun _ => [])).1,
   (signer_contract_guards (some [1]) "x".data (fun _ _ => []) none
      ⟨none, none, none⟩ (fun _ => true) (fun _ => [])).2.2.2 (by decide) rfl⟩

/-! ### Order and character lemmas -/

theorem char_toNat_ofNat (n : Nat) (h : n < 55296) : (Char.ofNat n).toNat = n := by
  rw [Char.ofNat, dif_pos (Or.inl h)]
  rfl

theorem lowChar_toNat (c : Char) :
    (lowChar c).toNat = if 65 ≤ c.toNat ∧ c.toNat ≤ 90 then c.toNat + 32 else c.toNat := by
  unfold lowChar
  split
  case isTrue h => exact char_toNat_ofNat _ (by omega)
  case isFalse h => rfl

theorem lowChar_eq_self (c : Char) (h : ¬(65 ≤ c.toNat ∧ c.toNat ≤ 90)) : lowChar c = c := by
  unfold lowChar
  exact if_neg h

theorem lowChar_idem (c : Char) : lowChar (lowChar c) = lowChar c := by
  by_cases h : 65 ≤ c.toNat ∧ c.toNat ≤ 90
  · apply lowChar_eq_self
    rw [lowChar_toNat, if_pos h]
    omega
  · rw [lowChar_eq_self c h]
    exact lowChar_eq_self c h

theorem lowStr_idem (s : Str) : lowStr (lowStr s) = lowStr s := by
  unfold lowStr
  rw [List.map_map]
  exact List.map_congr_left (fun c _ => lowChar_idem c)

theorem lowStr_append (a b : Str) : lowStr (a ++ b) = lowStr a ++ lowStr b :=
  List.map_append lowChar a b

theorem leChars_total : ∀ a b : Str, leChars a b = true ∨ leChars b a = true
  | [], _ => .inl rfl
  | _ :: _, [] => .inr rfl
  | a :: as, b :: bs => by
    simp only [leChars]
    rcases Nat.lt_trichotomy a.toNat b.toNat with h | h | h
    · left; simp [h]
    · have hn : ¬a.toNat < b.toNat := by omega
      have hn2 : ¬b.toNat < a.toNat := by omega
      rcases leChars_total as bs with ih | ih
      · left; simp [hn, hn2, ih]
      · right; simp [hn, hn2, ih]
    · right; simp [h]

theorem leChars_trans : ∀ a b c : Str,
    leChars a b = true → leChars b c = true → leChars a c = true
  | [], _, _, _, _ => rfl
  | _ :: _, [], _, h, _ => by cases h
  | _ :: _, _ :: _, [], _, h => by cases h
  | a :: as, b :: bs, c :: cs, h1, h2 => by
    simp only [leChars] at h1 h2 ⊢
    by_cases hab : a.toNat < b.toNat
    · rw [if_neg (show ¬b.toNat < a.toNat by omega)] at h1
      by_cases hbc : b.toNat < c.toNat
      · simp [show a.toNat < c.toNat by omega]
      · rw [if_neg hbc] at h2
        by_cases hcb : c.toNat < b.toNat
        · rw [if_pos hcb] at h2; cases h2
        · simp [show a.toNat < c.toNat by omega]
    · rw [if_neg hab] at h1
      by_cases hba : b.toNat < a.toNat
      · rw [if_pos hba] at h1; cases h1
      · rw [if_neg hba] at h1
        by_cases hbc : b.toNat < c.toNat
        · simp [show a.toNat < c.toNat by omega]
        · rw [if_neg hbc] at h2
          by_cases hcb : c.toNat < b.toNat
          · rw [if_pos hcb] at h2; cases h2
          · rw [if_neg hcb] at h2
            rw [if_neg (show ¬a.toNat < c.toNat by omega),
                if_neg (show ¬c.toNat < a.toNat by omega)]
            exact leChars_trans as bs cs h1 h2

/-! ### C5: signature base order -/

theorem objKeys_foldl_happend (headers : List (Str × Str)) :
    ∀ h0 : List (Str × Str),
      ∀ k ∈ objKeys (headers.foldl (fun h e => happend h e.1 e.2) h0),
        k ∈ objKeys h0 ∨ ∃ e ∈ headers, k = lowStr e.1 := by
  induction headers with
  | nil => exact fun h0 k hk => .inl hk
  | cons e rest ih =>
    intro h0 k hk
    rcases ih (happend h0 e.1 e.2) k hk with h | ⟨e2, he2, hko⟩
    · unfold happend objKeys at h
      rw [List.map_append] at h
      rcases List.mem_append.mp h with h | h
      · exact .inl h
      · simp only [List.map_cons, List.map_nil, List.mem_singleton] at h
        exact .inr ⟨e, List.mem_cons_self e rest, h⟩
    · exact .inr ⟨e2, List.mem_cons_of_mem e he2, hko⟩

theorem map_fst_map_pair {β : Type} (f : Str → β) (l : List Str) :
    (l.map (fun n => (n, f n))).map (fun e => e.1) = l := by
  induction l with
  | nil => rfl
  | cons x xs ih => simp only [List.map_cons, ih]

theorem objKeys_hIter (h : List (Str × Str)) :
    objKeys (hIter h)
      = List.insertionSort (fun a b => leChars a b = true) ((h.map (fun e => e.1)).dedup) := by
  unfold hIter objKeys
  exact map_fst_map_pair _ _

theorem validHeaderName_ne_atPath (s : Str) (hv : validHeaderName s = true) :
    lowStr s ≠ "@path".data := by
  intro he
  cases s with
  | nil => simp [validHeaderName] at hv
  | cons c cs =>
    have h1 : lowChar c = '@' := by
      have := congrArg (fun l => l.head?) he
      simpa [lowStr] using this
    have hc : c.toNat = 64 := by
      have ht := congrArg Char.toNat h1
      rw [lowChar_toNat, show ('@').toNat = 64 from rfl] at ht
      split at ht <;> omega
    have hmem : isTokenChar c = true := by
      unfold validHeaderName at hv
      simp only [Bool.and_eq_true, List.all_eq_true] at hv
      exact hv.2 c (List.mem_cons_self c cs)
    unfold isTokenChar at hmem
    rw [hc] at hmem
    simp at hmem

/-- C5: for every header set accepted by `toSigBaseArgs`, the signable fields
come out sorted in ascending byte order, the `@path` pseudo-field is present
exactly when `includePath` is set, every signed field contributes its entry
to the signature base ahead of the terminator, and the serialized
`@signature-params` entry is strictly the last entry of the signature
base. -/
theorem sigBase_sorted_params_last (headers : List (Str × Str)) (ip : Bool)
    (out : SigBaseOut) (canon : Str → Str) (sigInput : Str)
    (h : toSigBaseArgs headers ip = .ok out) :
    List.Sorted (fun a b => leChars a b = true) out.fields
    ∧ (("@path".data ∈ out.fields) ↔ ip = true)
    ∧ (∀ f ∈ out.fields, (quoteStr f, canon f)
         ∈ (signatureBaseList out.fields canon sigInput).dropLast)
    ∧ (signatureBaseList out.fields canon sigInput).getLast?
        = some (quoteStr "@signature-params".data, sigInput) := by
  unfold toSigBaseArgs at h
  split at h
  case isFalse => cases h
  case isTrue hval =>
  injection h with h
  subst h
  haveI : IsTotal Str (fun a b => leChars a b = true) := ⟨leChars_total⟩
  haveI : IsTrans Str (fun a b => leChars a b = true) := ⟨leChars_trans⟩
  refine ⟨List.sorted_insertionSort _ _, ?_, ?_, ?_⟩
  · constructor
    · intro hmem
      have hp := (List.perm_insertionSort (fun a b => leChars a b = true)
        (objKeys (hIter (headers.foldl (fun h e => happend h e.1 e.2) []))
          ++ (if ip = true then ["@path".data] else []))).mem_iff.mp hmem
      rcases List.mem_append.mp hp with hin | hin
      · exfalso
        rw [objKeys_hIter] at hin
        have hin2 := (List.perm_insertionSort (fun a b => leChars a b = true) _).mem_iff.mp hin
        rw [List.mem_dedup] at hin2
        have hin3 : "@path".data ∈ objKeys (headers.foldl (fun h e => happend h e.1 e.2) []) := hin2
        rcases objKeys_foldl_happend headers [] _ hin3 with hc | ⟨e, he, hke⟩
        · cases hc
        · exact validHeaderName_ne_atPath e.1
            (List.all_eq_true.mp hval e he) hke.symm
      · rcases hi : ip with _ | _
        · rw [hi] at hin; simp at hin
        · rfl
    · intro hip
      refine (List.perm_insertionSort (fun a b => leChars a b = true) _).mem_iff.mpr ?_
      rw [hip]
      exact List.mem_append.mpr (.inr (List.mem_singleton.mpr rfl))
  · intro f hf
    unfold signatureBaseList
    rw [List.dropLast_concat]
    exact List.mem_map.mpr ⟨f, hf, rfl⟩
  · exact List.getLast?_concat _

/-- Witness for C5 at a concrete request: one header named `B` and
`includePath` set. -/
theorem sigBase_sorted_params_last_witness :
    ("@path".data ∈ (⟨["@path".data, "b".data], [("b".data, "x".data)]⟩ : SigBaseOut).fields)
    ∧ (signatureBaseList
         (⟨["@path".data, "b".data], [("b".data, "x".data)]⟩ : SigBaseOut).fields
         (fun _ => []) []).getLast?
        = some (quoteStr "@signature-params".data, []) :=
  ⟨((sigBase_sorted_params_last [("B".data, "x".data)] true
      ⟨["@path".data, "b".data], [("b".data, "x".data)]⟩ (fun _ => []) []
      (by decide)).2.1).mpr rfl,
   (sigBase_sorted_params_last [("B".data, "x".data)] true
      ⟨["@path".data, "b".data], [("b".data, "x".data)]⟩ (fun _ => []) []
      (by decide)).2.2.2⟩

/-! ### C9: key casing in the Flattened Field Set -/


theorem exceptBind_eq_ok {ε α β : Type} {x : Except ε α} {f : α → Except ε β} {b : β}
    (h : (x >>= f) = .ok b) : ∃ a, x = .ok a ∧ f a = .ok b := by
  cases x with
  | error e => exact absurd h (by intro hh; cases hh)
  | ok a => exact ⟨a, rfl, h⟩

theorem objKeys_objSet {β : Type} (m : List (Str × β)) (k : Str) (v : β) :
    ∀ k2 ∈ objKeys (objSet m k v), k2 ∈ objKeys m ∨ k2 = k := by
  induction m with
  | nil =>
    intro k2 hk2
    simp only [objSet, objKeys, List.map_cons, List.map_nil, List.mem_singleton] at hk2
    exact .inr hk2
  | cons e rest ih =>
    intro k2 hk2
    unfold objSet at hk2
    split at hk2
    · simp only [objKeys, List.map_cons, List.mem_cons] at hk2
      rcases hk2 with h | h
      · exact .inr h
      · exact .inl (List.mem_cons_of_mem _ h)
    · simp only [objKeys, List.map_cons, List.mem_cons] at hk2
      rcases hk2 with h | h
      · exact .inl (by rw [h]; exact List.mem_cons_self _ _)
      · rcases ih k2 h with h2 | h2
        · exact .inl (List.mem_cons_of_mem _ h2)
        · exact .inr h2

theorem objKeys_foldl_objSet (flat : List (Str × EncVal)) :
    ∀ top : List (Str × LiftedVal),
      ∀ k ∈ objKeys (flat.foldl (fun t e => objSet t e.1 (.enc e.2)) top),
        k ∈ objKeys top ∨ k ∈ objKeys flat := by
  induction flat with
  | nil => exact fun top k hk => .inl hk
  | cons e rest ih =>
    intro top k hk
    rcases ih (objSet top e.1 (.enc e.2)) k hk with h | h
    · rcases objKeys_objSet top e.1 (.enc e.2) k h with h2 | h2
      · exact .inl h2
      · exact .inr (by rw [h2]; exact List.mem_cons_self _ _)
    · exact .inr (List.mem_cons_of_mem _ h)

theorem hbLiftFinish_keys (parent : Str) (flat : List (Str × EncVal))
    (types : List (Str × Str)) (top : List (Str × LiftedVal)) :
    ∀ k ∈ objKeys (hbLiftFinish parent flat types top),
      k ∈ objKeys top ∨ k ∈ objKeys flat ∨ k = "ao-types".data
      ∨ k = parent ++ "/ao-types".data ∨ k = parent := by
  intro k hk
  unfold hbLiftFinish at hk
  split at hk
  · exact .inl hk
  · set aoTypes := joinSep ",".data
      (types.map (fun e => lowStr e.1 ++ "=".data ++ e.2)) with hao
    by_cases hty : types.isEmpty
    all_goals simp only [hty, if_pos, if_neg, Bool.false_eq_true, if_true, if_false] at hk
    · -- ft = (flat, top)
      by_cases hpe : parent.isEmpty
      all_goals simp only [hpe, if_true, if_false, Bool.false_eq_true] at hk
      · rcases objKeys_foldl_objSet flat top k hk with h | h
        · exact .inl h
        · exact .inr (.inl h)
      · rcases objKeys_objSet top parent _ k hk with h | h
        · exact .inl h
        · exact .inr (.inr (.inr (.inr h)))
    · by_cases hsz : (utf8 aoTypes).length > MAX_HEADER_LENGTH
      all_goals simp only [hsz, if_true, if_false, gt_iff_lt, if_pos, if_neg, not_lt] at hk
      · -- ao-types lifted to top
        by_cases hpe : parent.isEmpty
        all_goals simp only [hpe, if_true, if_false, Bool.false_eq_true] at hk
        · rcases objKeys_foldl_objSet flat _ k hk with h | h
          · rcases objKeys_objSet top _ _ k h with h2 | h2
            · exact .inl h2
            · exact .inr (.inr (.inl h2))
          · exact .inr (.inl h)
        · rcases objKeys_objSet _ parent _ k hk with h | h
          · rcases objKeys_objSet top _ _ k h with h2 | h2
            · exact .inl h2
            · exact .inr (.inr (.inr (.inl h2)))
          · exact .inr (.inr (.inr (.inr h)))
      · -- ao-types kept in flat
        by_cases hpe : parent.isEmpty
        all_goals simp only [hpe, if_true, if_false, Bool.false_eq_true] at hk
        · rcases objKeys_foldl_objSet _ top k hk with h | h
          · exact .inl h
          · rcases objKeys_objSet flat _ _ k h with h2 | h2
            · exact .inr (.inl h2)
            · exact .inr (.inr (.inl h2))
        · rcases objKeys_objSet top parent _ k hk with h | h
          · exact .inl h
          · exact .inr (.inr (.inr (.inr h)))

theorem hbLiftStep_keys (key flatKey : Str) (v : JSVal)
    (flat : List (Str × EncVal)) (types : List (Str × Str))
    (top : List (Str × LiftedVal))
    (st : List (Str × EncVal) × List (Str × Str) × List (Str × LiftedVal))
    (h : hbLiftStep key flatKey v flat types top = .ok st) :
    (∀ k ∈ objKeys st.1, k ∈ objKeys flat ∨ k = key)
    ∧ (∀ k ∈ objKeys st.2.2, k ∈ objKeys top ∨ k = flatKey) := by
  unfold hbLiftStep at h
  obtain ⟨te, _hte, h2⟩ := exceptBind_eq_ok h
  rcases te with ⟨t1, t2⟩
  rcases t2 with _ | e
  · simp only [Option.getD] at h2
    cases h2
    exact ⟨fun k hk => .inl hk, fun k hk => .inl hk⟩
  · simp only [] at h2
    by_cases hsz : encSize e > MAX_HEADER_LENGTH
    all_goals simp only [hsz, if_true, if_false, gt_iff_lt, if_pos, if_neg, not_lt] at h2
    · cases h2
      exact ⟨fun k hk => .inl hk, fun k hk => objKeys_objSet top flatKey _ k hk⟩
    · cases h2
      exact ⟨fun k hk => objKeys_objSet flat key _ k hk, fun k hk => .inl hk⟩

theorem lowStr_eq_self_of (s : Str) (h : ∀ c ∈ s, lowChar c = c) : lowStr s = s := by
  unfold lowStr
  rw [List.map_congr_left h]
  exact List.map_id' s

theorem natDigitsCore_chars (fuel : Nat) :
    ∀ n acc, (∀ c ∈ acc, lowChar c = c) →
      ∀ c ∈ natDigitsCore fuel n acc, lowChar c = c := by
  induction fuel with
  | zero => exact fun n acc hacc => hacc
  | succ fuel ih =>
    intro n acc hacc c hc
    unfold natDigitsCore at hc
    have hdig : ∀ m : Nat, m < 10 → lowChar (Char.ofNat (48 + m)) = Char.ofNat (48 + m) := by
      intro m hm
      apply lowChar_eq_self
      rw [char_toNat_ofNat (48 + m) (by omega)]
      omega
    split at hc
    case isTrue hn =>
      rcases List.mem_cons.mp hc with h | h
      · rw [h]; exact hdig n hn
      · exact hacc c h
    case isFalse hn =>
      refine ih (n / 10) _ ?_ c hc
      intro c2 hc2
      rcases List.mem_cons.mp hc2 with h | h
      · rw [h]; exact hdig (n % 10) (by omega)
      · exact hacc c2 h

theorem lowStr_natDigits (n : Nat) : lowStr (natDigits n) = natDigits n :=
  lowStr_eq_self_of _ (natDigitsCore_chars (n + 1) n [] (by intro c hc; cases hc))

theorem lowStr_flatKeyOf (parent key : Str) :
    lowStr (flatKeyOf parent key) = flatKeyOf parent key := by
  unfold flatKeyOf
  split
  · exact lowStr_idem key
  · exact lowStr_idem _

theorem keysAllE_toIndexed (xs : List JSVal) :
    ∀ i, ∀ k ∈ keysAllE (toIndexed i xs), lowStr k = k ∨ k ∈ keysAllL xs := by
  induction xs with
  | nil => intro i k hk; cases hk
  | cons v rest ih =>
    intro i k hk
    unfold toIndexed keysAllE at hk
    rcases List.mem_cons.mp hk with h | h
    · exact .inl (by rw [h]; exact lowStr_natDigits i)
    · rcases List.mem_append.mp h with h2 | h2
      · exact .inr (List.mem_append.mpr (.inl h2))
      · rcases ih (i + 1) k h2 with h3 | h3
        · exact .inl h3
        · exact .inr (List.mem_append.mpr (.inr h3))

/-- The key-provenance invariant of `hbEncodeLift`: under any predicate `Q`
holding of all fully-lowercase strings, of the keys already in the
accumulators, and of every original key of the remaining entries, all keys of
the result satisfy `Q`. -/
theorem hbLift_keys_invariant (Q : Str → Prop) (hlow : ∀ k, lowStr k = k → Q k) :
    ∀ fuel entries parent flat types top res,
      hbLift fuel entries parent flat types top = .ok res →
      lowStr parent = parent →
      (∀ k ∈ objKeys top, Q k) →
      (∀ k ∈ objKeys flat, Q k) →
      (∀ k ∈ keysAllE entries, Q k) →
      ∀ k ∈ objKeys res, Q k := by
  intro fuel
  induction fuel with
  | zero =>
    intro entries parent flat types top res h
    cases h
  | succ fuel ih =>
    intro entries parent flat types top res h hpar htop hflat hall
    match entries with
    | [] =>
      simp only [hbLift] at h
      injection h with h
      subst h
      intro k hk
      rcases hbLiftFinish_keys parent flat types top k hk with
        h | h | h | h | h
      · exact htop k h
      · exact hflat k h
      · exact hlow k (by rw [h]; decide)
      · refine hlow k ?_
        rw [h, lowStr_append, hpar]
        rw [show lowStr "/ao-types".data = "/ao-types".data by decide]
      · exact hlow k (h ▸ hpar)
    | (key, val) :: rest =>
      have hQkey : Q key := hall key (List.mem_cons_self _ _)
      have hallv : ∀ k ∈ keysAllV val, Q k := fun k hk =>
        hall k (List.mem_cons_of_mem _ (List.mem_append.mpr (.inl hk)))
      have hallr : ∀ k ∈ keysAllE rest, Q k := fun k hk =>
        hall k (List.mem_cons_of_mem _ (List.mem_append.mpr (.inr hk)))
      simp only [hbLift] at h
      match val with
      | .null =>
        exact ih rest parent flat types top res h hpar htop hflat hallr
      | .obj m =>
        obtain ⟨top2, hsub, h2⟩ := exceptBind_eq_ok h
        have htop2 : ∀ k ∈ objKeys top2, Q k :=
          ih m (flatKeyOf parent key) [] [] top top2 hsub
            (lowStr_flatKeyOf parent key) htop (fun k hk => by cases hk) hallv
        exact ih rest parent flat types top2 res h2 hpar htop2 hflat hallr
      | .arr xs =>
        by_cases hpj : xs.any isPojoB
        all_goals simp only [hpj, if_true, if_false, Bool.false_eq_true] at h
        · obtain ⟨top2, hsub, h2⟩ := exceptBind_eq_ok h
          have htop2 : ∀ k ∈ objKeys top2, Q k := by
            refine ih (toIndexed 0 xs) (flatKeyOf parent key) [] [] top top2 hsub
              (lowStr_flatKeyOf parent key) htop (fun k hk => by cases hk) ?_
            intro k hk
            rcases keysAllE_toIndexed xs 0 k hk with h3 | h3
            · exact hlow k h3
            · exact hallv k h3
          exact ih rest parent flat types top2 res h2 hpar htop2 hflat hallr
        · obtain ⟨st, hst, h2⟩ := exceptBind_eq_ok h
          obtain ⟨hstf, hstt⟩ := hbLiftStep_keys key (flatKeyOf parent key) (.arr xs)
            flat types top st hst
          refine ih rest parent st.1 st.2.1 st.2.2 res h2 hpar ?_ ?_ hallr
          · intro k hk
            rcases hstt k hk with h3 | h3
            · exact htop k h3
            · exact hlow k (h3 ▸ lowStr_flatKeyOf parent key)
          · intro k hk
            rcases hstf k hk with h3 | h3
            · exact hflat k h3
            · exact h3 ▸ hQkey
      | .bool b =>
        obtain ⟨st, hst, h2⟩ := exceptBind_eq_ok h
        obtain ⟨hstf, hstt⟩ := hbLiftStep_keys key (flatKeyOf parent key) (.bool b)
          flat types top st hst
        refine ih rest parent st.1 st.2.1 st.2.2 res h2 hpar ?_ ?_ hallr
        · intro k hk
          rcases hstt k hk with h3 | h3
          · exact htop k h3
          · exact hlow k (h3 ▸ lowStr_flatKeyOf parent key)
        · intro k hk
          rcases hstf k hk with h3 | h3
          · exact hflat k h3
          · exact h3 ▸ hQkey
      | .str s =>
        obtain ⟨st, hst, h2⟩ := exceptBind_eq_ok h
        obtain ⟨hstf, hstt⟩ := hbLiftStep_keys key (flatKeyOf parent key) (.str s)
          flat types top st hst
        refine ih rest parent st.1 st.2.1 st.2.2 res h2 hpar ?_ ?_ hallr
        · intro k hk
          rcases hstt k hk with h3 | h3
          · exact htop k h3
          · exact hlow k (h3 ▸ lowStr_flatKeyOf parent key)
        · intro k hk
          rcases hstf k hk with h3 | h3
          · exact hflat k h3
          · exact h3 ▸ hQkey
      | .bytes bs =>
        obtain ⟨st, hst, h2⟩ := exceptBind_eq_ok h
        obtain ⟨hstf, hstt⟩ := hbLiftStep_keys key (flatKeyOf parent key) (.bytes bs)
          flat types top st hst
        refine ih rest parent st.1 st.2.1 st.2.2 res h2 hpar ?_ ?_ hallr
        · intro k hk
          rcases hstt k hk with h3 | h3
          · exact htop k h3
          · exact hlow k (h3 ▸ lowStr_flatKeyOf parent key)
        · intro k hk
          rcases hstf k hk with h3 | h3
          · exact hflat k h3
          · exact h3 ▸ hQkey
      | .int n =>
        obtain ⟨st, hst, h2⟩ := exceptBind_eq_ok h
        obtain ⟨hstf, hstt⟩ := hbLiftStep_keys key (flatKeyOf parent key) (.int n)
          flat types top st hst
        refine ih rest parent st.1 st.2.1 st.2.2 res h2 hpar ?_ ?_ hallr
        · intro k hk
          rcases hstt k hk with h3 | h3
          · exact htop k h3
          · exact hlow k (h3 ▸ lowStr_flatKeyOf parent key)
        · intro k hk
          rcases hstf k hk with h3 | h3
          · exact hflat k h3
          · exact h3 ▸ hQkey
      | .float r =>
        obtain ⟨st, hst, h2⟩ := exceptBind_eq_ok h
        obtain ⟨hstf, hstt⟩ := hbLiftStep_keys key (flatKeyOf parent key) (.float r)
          flat types top st hst
        refine ih rest parent st.1 st.2.1 st.2.2 res h2 hpar ?_ ?_ hallr
        · intro k hk
          rcases hstt k hk with h3 | h3
          · exact htop k h3
          · exact hlow k (h3 ▸ lowStr_flatKeyOf parent key)
        · intro k hk
          rcases hstf k hk with h3 | h3
          · exact hflat k h3
          · exact h3 ▸ hQkey
      | .sym d =>
        obtain ⟨st, hst, h2⟩ := exceptBind_eq_ok h
        obtain ⟨hstf, hstt⟩ := hbLiftStep_keys key (flatKeyOf parent key) (.sym d)
          flat types top st hst
        refine ih rest parent st.1 st.2.1 st.2.2 res h2 hpar ?_ ?_ hallr
        · intro k hk
          rcases hstt k hk with h3 | h3
          · exact htop k h3
          · exact hlow k (h3 ▸ lowStr_flatKeyOf parent key)
        · intro k hk
          rcases hstf k hk with h3 | h3
          · exact hflat k h3
          · exact h3 ▸ hQkey

/-- C9 counterexample: a field kept at its own level retains its
original-case key: flattening `\x7b Action: "Test" \x7d` yields the key
`Action`, which is not a fully lowercase path string. -/
theorem hbEncodeLift_originalCase_cex :
    hbEncodeLift [("Action".data, .str "Test".data)]
      = .ok [("Action".data, .enc (.s "Test".data))]
    ∧ lowStr "Action".data ≠ "Action".data := by decide

/-- C9 amended: every key of the Flattened Field Set is either a fully
lowercase string (all lifted path-qualified keys, oversized-value keys, the
`ao-types` keys, and nested-group parent keys are of this kind) or the
verbatim original key of some input field kept at its own level. -/
theorem hbEncodeLift_keys_lower_or_original (obj : List (Str × JSVal))
    (res : List (Str × LiftedVal)) (h : hbEncodeLift obj = .ok res) :
    ∀ k ∈ objKeys res, lowStr k = k ∨ k ∈ keysAllE obj := by
  have h2 : hbLift (jsSizeE obj + 1) obj [] [] [] [] = .ok res := h
  exact hbLift_keys_invariant (fun k => lowStr k = k ∨ k ∈ keysAllE obj)
    (fun k hk => .inl hk) (jsSizeE obj + 1) obj [] [] [] [] res h2 rfl
    (fun k hk => by cases hk) (fun k hk => by cases hk) (fun k hk => .inr hk)

/-- Witness for the C9 amended theorem: the lifted parent key `a` of a
nested map under the original key `A`. -/
theorem hbEncodeLift_keys_lower_or_original_witness :
    lowStr "a".data = "a".data
    ∨ "a".data ∈ keysAllE [("A".data, JSVal.obj [("B".data, .int 1)])] :=
  hbEncodeLift_keys_lower_or_original [("A".data, .obj [("B".data, .int 1)])]
    [("a".data, .group [("B".data, .s "1".data), ("ao-types".data, .s "b=integer".data)])]
    (by decide) "a".data (by decide)

/-! ### C3: Header/Body classification -/

theorem objKeys_objSet_nodup {β : Type} (m : List (Str × β)) (k : Str) (v : β)
    (h : (objKeys m).Nodup) : (objKeys (objSet m k v)).Nodup := by
  induction m with
  | nil => simp [objSet, objKeys]
  | cons e rest ih =>
    rw [objKeys, List.map_cons] at h
    rcases List.nodup_cons.mp h with ⟨hnotin, hnd⟩
    unfold objSet
    split
    case isTrue heq =>
      rw [objKeys, List.map_cons]
      exact List.nodup_cons.mpr ⟨by rw [← heq]; exact hnotin, hnd⟩
    case isFalse hne =>
      rw [objKeys, List.map_cons]
      refine List.nodup_cons.mpr ⟨?_, ih hnd⟩
      intro hmem
      rcases objKeys_objSet rest k v e.1 hmem with h2 | h2
      · exact hnotin h2
      · exact hne h2

theorem objKeys_foldl_objSet_nodup (flat : List (Str × EncVal)) :
    ∀ top : List (Str × LiftedVal), (objKeys top).Nodup →
      (objKeys (flat.foldl (fun t e => objSet t e.1 (.enc e.2)) top)).Nodup := by
  induction flat with
  | nil => exact fun _ h => h
  | cons e rest ih => exact fun top h => ih _ (objKeys_objSet_nodup top e.1 _ h)

theorem hbLiftFinish_nodup (parent : Str) (flat : List (Str × EncVal))
    (types : List (Str × Str)) (top : List (Str × LiftedVal))
    (h : (objKeys top).Nodup) :
    (objKeys (hbLiftFinish parent flat types top)).Nodup := by
  unfold hbLiftFinish
  split
  · exact h
  · by_cases hty : types.isEmpty
    all_goals simp only [hty, if_pos, if_neg, Bool.false_eq_true, if_true, if_false]
    · by_cases hpe : parent.isEmpty
      all_goals simp only [hpe, if_true, if_false, Bool.false_eq_true]
      · exact objKeys_foldl_objSet_nodup flat top h
      · exact objKeys_objSet_nodup top parent _ h
    · by_cases hsz : (utf8 (joinSep ",".data
          (types.map (fun e => lowStr e.1 ++ "=".data ++ e.2)))).length > MAX_HEADER_LENGTH
      all_goals simp only [hsz, if_true, if_false, gt_iff_lt, if_pos, if_neg, not_lt]
      · by_cases hpe : parent.isEmpty
        all_goals simp only [hpe, if_true, if_false, Bool.false_eq_true]
        · exact objKeys_foldl_objSet_nodup flat _ (objKeys_objSet_nodup top _ _ h)
        · exact objKeys_objSet_nodup _ parent _ (objKeys_objSet_nodup top _ _ h)
      · by_cases hpe : parent.isEmpty
        all_goals simp only [hpe, if_true, if_false, Bool.false_eq_true]
        · exact objKeys_foldl_objSet_nodup _ top h
        · exact objKeys_objSet_nodup top parent _ h

theorem hbLiftStep_nodup (key flatKey : Str) (v : JSVal)
    (flat : List (Str × EncVal)) (types : List (Str × Str))
    (top : List (Str × LiftedVal))
    (st : List (Str × EncVal) × List (Str × Str) × List (Str × LiftedVal))
    (h : hbLiftStep key flatKey v flat types top = .ok st)
    (hnd : (objKeys top).Nodup) : (objKeys st.2.2).Nodup := by
  unfold hbLiftStep at h
  obtain ⟨te, _hte, h2⟩ := exceptBind_eq_ok h
  rcases te with ⟨t1, t2⟩
  rcases t2 with _ | e
  · cases h2; exact hnd
  · simp only [] at h2
    by_cases hsz : encSize e > MAX_HEADER_LENGTH
    all_goals simp only [hsz, if_true, if_false, gt_iff_lt, if_pos, if_neg, not_lt] at h2
    · cases h2; exact objKeys_objSet_nodup top flatKey _ hnd
    · cases h2; exact hnd

theorem hbLift_nodup : ∀ fuel entries parent flat types top res,
    hbLift fuel entries parent flat types top = .ok res →
    (objKeys top).Nodup → (objKeys res).Nodup := by
  intro fuel
  induction fuel with
  | zero => intro _ _ _ _ _ _ h; cases h
  | succ fuel ih =>
    intro entries parent flat types top res h hnd
    match entries with
    | [] =>
      simp only [hbLift] at h
      injection h with h
      exact h ▸ hbLiftFinish_nodup parent flat types top hnd
    | (key, val) :: rest =>
      simp only [hbLift] at h
      match val with
      | .null => exact ih rest parent flat types top res h hnd
      | .obj m =>
        obtain ⟨top2, hsub, h2⟩ := exceptBind_eq_ok h
        exact ih rest parent flat types top2 res h2
          (ih m (flatKeyOf parent key) [] [] top top2 hsub hnd)
      | .arr xs =>
        by_cases hpj : xs.any isPojoB
        all_goals simp only [hpj, if_true, if_false, Bool.false_eq_true] at h
        · obtain ⟨top2, hsub, h2⟩ := exceptBind_eq_ok h
          exact ih rest parent flat types top2 res h2
            (ih (toIndexed 0 xs) (flatKeyOf parent key) [] [] top top2 hsub hnd)
        · obtain ⟨st, hst, h2⟩ := exceptBind_eq_ok h
          exact ih rest parent st.1 st.2.1 st.2.2 res h2
            (hbLiftStep_nodup key (flatKeyOf parent key) _ flat types top st hst hnd)
      | .bool b =>
        obtain ⟨st, hst, h2⟩ := exceptBind_eq_ok h
        exact ih rest parent st.1 st.2.1 st.2.2 res h2
          (hbLiftStep_nodup key (flatKeyOf parent key) _ flat types top st hst hnd)
      | .str s =>
        obtain ⟨st, hst, h2⟩ := exceptBind_eq_ok h
        exact ih rest parent st.1 st.2.1 st.2.2 res h2
          (hbLiftStep_nodup key (flatKeyOf parent key) _ flat types top st hst hnd)
      | .bytes bs =>
        obtain ⟨st, hst, h2⟩ := exceptBind_eq_ok h
        exact ih rest parent st.1 st.2.1 st.2.2 res h2
          (hbLiftStep_nodup key (flatKeyOf parent key) _ flat types top st hst hnd)
      | .int n =>
        obtain ⟨st, hst, h2⟩ := exceptBind_eq_ok h
        exact ih rest parent st.1 st.2.1 st.2.2 res h2
          (hbLiftStep_nodup key (flatKeyOf parent key) _ flat types top st hst hnd)
      | .float r =>
        obtain ⟨st, hst, h2⟩ := exceptBind_eq_ok h
        exact ih rest parent st.1 st.2.1 st.2.2 res h2
          (hbLiftStep_nodup key (flatKeyOf parent key) _ flat types top st hst hnd)
      | .sym d =>
        obtain ⟨st, hst, h2⟩ := exceptBind_eq_ok h
        exact ih rest parent st.1 st.2.1 st.2.2 res h2
          (hbLiftStep_nodup key (flatKeyOf parent key) _ flat types top st hst hnd)

theorem assoc_val_unique {β : Type} :
    ∀ l : List (Str × β), (objKeys l).Nodup →
      ∀ (k : Str) (v1 v2 : β), (k, v1) ∈ l → (k, v2) ∈ l → v1 = v2 := by
  intro l
  induction l with
  | nil => intro _ k v1 v2 h; cases h
  | cons e rest ih =>
    intro hnd k v1 v2 h1 h2
    rw [objKeys, List.map_cons] at hnd
    rcases List.nodup_cons.mp hnd with ⟨hni, hnd2⟩
    rcases List.mem_cons.mp h1 with h1 | h1 <;> rcases List.mem_cons.mp h2 with h2 | h2
    · rw [← h1] at h2; injection h2 with _ h2; exact h2.symm
    · exfalso
      refine hni ?_
      rw [← h1]
      exact List.mem_map.mpr ⟨(k, v2), h2, rfl⟩
    · exfalso
      refine hni ?_
      rw [← h2]
      exact List.mem_map.mpr ⟨(k, v1), h1, rfl⟩
    · exact ih hnd2 k v1 v2 h1 h2

theorem hbSplit_spec : ∀ (fuel : Nat) (dig : Bytes → Bytes)
    (entries : List (Str × LiftedVal)) (hs : List (Str × Str)) (bs : List (Str × Bytes)),
    hbSplit fuel dig entries = .ok (hs, bs) →
    (∀ (k : Str) (e : EncVal), (k, LiftedVal.enc e) ∈ entries →
        (scalarNeedsBody k e = true → k ∈ bs.map (fun p => p.1))
        ∧ (scalarNeedsBody k e = false → (k, jsStrOfEnc e) ∈ hs))
    ∧ (∀ k ∈ bs.map (fun p => p.1),
        ∃ v, (k, v) ∈ entries ∧ ∀ e : EncVal, v = LiftedVal.enc e → scalarNeedsBody k e = true) := by
  intro fuel
  induction fuel with
  | zero => intro _ _ _ _ h; cases h
  | succ fuel ih =>
    intro dig entries hs bs h
    match entries with
    | [] =>
      simp only [hbSplit] at h
      obtain ⟨rfl, rfl⟩ : hs = [] ∧ bs = [] := by
        injection h with h
        injection h with h1 h2
        exact ⟨h1.symm, h2.symm⟩
      refine ⟨fun k e hk => ?_, fun k hk => ?_⟩
      · cases hk
      · cases hk
    | (k0, LiftedVal.group m) :: rest =>
      simp only [hbSplit] at h
      obtain ⟨⟨hb1, hb2⟩, hrest, h2⟩ := exceptBind_eq_ok h
      obtain ⟨sub, _hsub, h3⟩ := exceptBind_eq_ok h2
      obtain ⟨ihf, ihr⟩ := ih dig rest hb1 hb2 (by rw [hrest])
      cases sub with
      | none =>
        injection h3 with h3
        injection h3 with h31 h32
        subst h31; subst h32
        constructor
        · intro k e hk
          rcases List.mem_cons.mp hk with hk | hk
          · cases hk
          · exact ihf k e hk
        · intro k hk
          obtain ⟨v, hv, himp⟩ := ihr k hk
          exact ⟨v, List.mem_cons_of_mem _ hv, himp⟩
      | some r =>
        injection h3 with h3
        injection h3 with h31 h32
        subst h31
        rw [← h32]
        constructor
        · intro k e hk
          rcases List.mem_cons.mp hk with hk | hk
          · cases hk
          · obtain ⟨hf1, hf2⟩ := ihf k e hk
            exact ⟨fun hbody => List.mem_cons_of_mem _ (hf1 hbody), hf2⟩
        · intro k hk
          rcases List.mem_cons.mp hk with hk | hk
          · have hk2 : k = k0 := hk
            refine ⟨LiftedVal.group m, ?_, ?_⟩
            · rw [hk2]; exact List.mem_cons_self _ _
            · intro e he; cases he
          · obtain ⟨v, hv, himp⟩ := ihr k hk
            exact ⟨v, List.mem_cons_of_mem _ hv, himp⟩
    | (k0, LiftedVal.enc e0) :: rest =>
      simp only [hbSplit] at h
      obtain ⟨⟨hb1, hb2⟩, hrest, h2⟩ := exceptBind_eq_ok h
      obtain ⟨ihf, ihr⟩ := ih dig rest hb1 hb2 (by rw [hrest])
      split at h2
      case isTrue hnb =>
        injection h2 with h2
        injection h2 with h21 h22
        subst h21
        rw [← h22]
        constructor
        · intro k e hk
          rcases List.mem_cons.mp hk with hk | hk
          · injection hk with hk1 hk2
            injection hk2 with hk2
            subst hk1; subst hk2
            refine ⟨fun _ => List.mem_cons_self _ _, fun hf => ?_⟩
            rw [hf] at hnb
            cases hnb
          · obtain ⟨hf1, hf2⟩ := ihf k e hk
            exact ⟨fun hbody => List.mem_cons_of_mem _ (hf1 hbody), hf2⟩
        · intro k hk
          rcases List.mem_cons.mp hk with hk | hk
          · have hk2 : k = k0 := hk
            refine ⟨LiftedVal.enc e0, ?_, ?_⟩
            · rw [hk2]; exact List.mem_cons_self _ _
            · intro e he
              injection he with he
              rw [← he, hk2]
              exact hnb
          · obtain ⟨v, hv, himp⟩ := ihr k hk
            exact ⟨v, List.mem_cons_of_mem _ hv, himp⟩
      case isFalse hnb =>
        replace hnb : scalarNeedsBody k0 e0 = false := by
          rcases hx : scalarNeedsBody k0 e0 with _ | _
          · rfl
          · exact absurd hx hnb
        injection h2 with h2
        injection h2 with h21 h22
        subst h22
        rw [← h21]
        constructor
        · intro k e hk
          rcases List.mem_cons.mp hk with hk | hk
          · injection hk with hk1 hk2
            injection hk2 with hk2
            subst hk1; subst hk2
            refine ⟨fun hbody => ?_, fun _ => List.mem_cons_self _ _⟩
            rw [hbody] at hnb
            cases hnb
          · obtain ⟨hf1, hf2⟩ := ihf k e hk
            exact ⟨hf1, fun hf => List.mem_cons_of_mem _ (hf2 hf)⟩
        · intro k hk
          obtain ⟨v, hv, himp⟩ := ihr k hk
          exact ⟨v, List.mem_cons_of_mem _ hv, himp⟩

theorem jsStrOfEnc_bigBytes : jsStrOfEnc (.b (List.replicate 1100 100))
    = joinSep ",".data (List.replicate 1100 "100".data) := by
  show joinSep ",".data (List.map natDigits (List.replicate 1100 100)) = _
  rw [List.map_replicate]
  rw [show natDigits 100 = "100".data by decide]

theorem utf8_append (a b : Str) : utf8 (a ++ b) = utf8 a ++ utf8 b := by
  unfold utf8
  rw [List.map_append, List.flatten_append]

theorem joinSep_two (sep s t : Str) (rest : List Str) :
    joinSep sep (s :: t :: rest) = s ++ (sep ++ joinSep sep (t :: rest)) := rfl

theorem utf8_joinSep_digits_len : ∀ n : Nat,
    (utf8 (joinSep ",".data (List.replicate (n + 1) "100".data))).length = 4 * (n + 1) - 1 := by
  intro n
  induction n with
  | zero => decide
  | succ m ih =>
    rw [show List.replicate (m + 1 + 1) "100".data
          = "100".data :: "100".data :: List.replicate m "100".data from rfl]
    rw [joinSep_two, utf8_append, utf8_append, List.length_append, List.length_append]
    rw [show ("100".data :: List.replicate m "100".data)
          = List.replicate (m + 1) "100".data from rfl, ih]
    rw [show (utf8 "100".data).length = 3 from rfl, show (utf8 ",".data).length = 1 from rfl]
    omega

set_option maxRecDepth 4000 in
theorem hasNewlineEnc_bigBytes : hasNewlineEnc (.b (List.replicate 1100 100)) = false := by
  decide

set_option maxRecDepth 4000 in
theorem scalarNeedsBody_bigBytes :
    scalarNeedsBody "k".data (.b (List.replicate 1100 100)) = true := by
  have hlen : (utf8 (jsStrOfEnc (.b (List.replicate 1100 100)))).length = 4399 := by
    rw [jsStrOfEnc_bigBytes]
    have h := utf8_joinSep_digits_len 1099
    norm_num at h
    exact h
  unfold scalarNeedsBody
  rw [hlen, hasNewlineEnc_bigBytes]
  decide

theorem except_ok_bind {ε α β : Type} (a : α) (f : α → Except ε β) :
    (Except.ok a >>= f : Except ε β) = f a := rfl

set_option maxRecDepth 40000 in
/-- C3 counterexample: a 1100-byte binary field (no newline byte, key
without a path separator, encoded size 1100 ≤ 4096) is still classified as a
Body Part, because `toHBRequest` measures `Buffer.byteLength(String(value))`
— the comma-joined decimal rendering, 4399 bytes here — rather than the
encoded size the claim states. -/
theorem toHBRequest_classification_cex :
    Except.map (fun p => (p.1, p.2.map (fun q => q.1)))
      (hbSplit 4 (fun _ => []) [("k".data, .enc (.b (List.replicate 1100 100)))])
      = .ok ([], ["k".data])
    ∧ encSize (.b (List.replicate 1100 100)) ≤ MAX_HEADER_LENGTH
    ∧ hasNewlineEnc (.b (List.replicate 1100 100)) = false
    ∧ containsChar "k".data '/' = false
    ∧ hbEncodeLift [("k".data, .bytes (List.replicate 1100 100))]
        = .ok [("k".data, .enc (.b (List.replicate 1100 100)))] := by
  refine ⟨?_, by decide, hasNewlineEnc_bigBytes, by decide, by decide⟩
  simp only [hbSplit, except_ok_bind]
  rw [scalarNeedsBody_bigBytes, if_pos rfl]
  rfl

/-- C3 amended: for every flattened scalar field, `toHBRequest` classifies it
as a Body Part exactly when its value has a newline, its key contains the
path separator, or the byte length of its JavaScript string rendering (which
equals the encoded size for string values but is the comma-joined decimal
rendering for byte values) exceeds 4096; otherwise its string rendering is
emitted verbatim as a Header Part. -/
theorem toHBRequest_body_classification
    (obj : List (Str × JSVal)) (flattened : List (Str × LiftedVal))
    (fuel : Nat) (dig : Bytes → Bytes)
    (hs : List (Str × Str)) (bs : List (Str × Bytes))
    (hflat : hbEncodeLift obj = .ok flattened)
    (hsplit : hbSplit fuel dig flattened = .ok (hs, bs))
    (k : Str) (e : EncVal) (hmem : (k, LiftedVal.enc e) ∈ flattened) :
    ((k ∈ bs.map (fun p => p.1)) ↔
      (hasNewlineEnc e = true ∨ containsChar k '/' = true
        ∨ (utf8 (jsStrOfEnc e)).length > MAX_HEADER_LENGTH))
    ∧ (¬(hasNewlineEnc e = true ∨ containsChar k '/' = true
        ∨ (utf8 (jsStrOfEnc e)).length > MAX_HEADER_LENGTH) →
       (k, jsStrOfEnc e) ∈ hs) := by
  have hnd : (objKeys flattened).Nodup :=
    hbLift_nodup (jsSizeE obj + 1) obj [] [] [] [] flattened hflat List.nodup_nil
  obtain ⟨hspec1, hspec2⟩ := hbSplit_spec fuel dig flattened hs bs hsplit
  have hiff : scalarNeedsBody k e = true ↔
      (hasNewlineEnc e = true ∨ containsChar k '/' = true
        ∨ (utf8 (jsStrOfEnc e)).length > MAX_HEADER_LENGTH) := by
    unfold scalarNeedsBody
    simp only [Bool.or_eq_true, decide_eq_true_iff, gt_iff_lt]
    exact or_assoc
  constructor
  · constructor
    · intro hin
      obtain ⟨v, hv, himp⟩ := hspec2 k hin
      have hve : v = LiftedVal.enc e :=
        assoc_val_unique flattened hnd k v (LiftedVal.enc e) hv hmem
      exact hiff.mp (himp e hve)
    · intro hcond
      exact (hspec1 k e hmem).1 (hiff.mpr hcond)
  · intro hncond
    refine (hspec1 k e hmem).2 ?_
    rcases hb : scalarNeedsBody k e with _ | _
    · rfl
    · exact absurd (hiff.mp hb) hncond

/-- Witness for the C3 amended theorem: a newline-carrying field becomes the
single body part. -/
theorem toHBRequest_body_classification_witness :
    "note".data ∈
      ([("note".data, utf8 (cdHeaderFor "note".data) ++ utf8 "a\nb".data)].map
        (fun p => p.1)) :=
  (toHBRequest_body_classification [("note".data, .str "a\nb".data)]
    [("note".data, .enc (.s "a\nb".data))] 2 (fun _ => [])
    [] [("note".data, utf8 (cdHeaderFor "note".data) ++ utf8 "a\nb".data)]
    (by decide) (by decide) "note".data (.s "a\nb".data)
    (by decide)).1.mpr (.inl (by decide))

/-- C7: at a field map whose single Body Part is the newline-carrying field
`note` (and which has no `data` field), the inlined body is NOT that Body
Part's value: the source builds the body from `obj.data`
(`new Blob([obj.data])`), which here is `undefined` and renders as the
literal text `undefined`; the `inline-body-key` header does record the key,
which never was in the header set. -/
theorem toHBRequest_single_body_uses_data_field (dig : Bytes → Bytes) :
    toHBRequest dig [("note".data, .str "a\nb".data)]
      = .ok (some ⟨[("inline-body-key".data, "note".data),
                    ("content-digest".data,
                     "sha-256=:".data
                       ++ encodeBase64Url (dig (utf8 "undefined".data)) ++ ":".data)],
                   some (utf8 "undefined".data)⟩)
    ∧ utf8 "undefined".data ≠ utf8 "a\nb".data :=
  ⟨rfl, by decide⟩

/-- C10 counterexample: a non-empty field map with a boolean value makes
`toHBRequest` throw (`hbEncodeValue` supports no boolean), so not every
non-empty field map returns a defined `\x7bheaders, body?\x7d` result. -/
theorem toHBRequest_nonempty_can_throw_cex :
    toHBRequest (fun _ => []) [("a".data, .bool true)]
      = .error "Cannot encode value: true".data := by decide

/-- C10 amended: the empty field map returns `undefined` (`none`) — so no
empty-but-signed format-B request can arise from no fields — and a non-empty
field map never returns `undefined`: it returns a defined
`\x7bheaders, body?\x7d` result or throws an encoding error. -/
theorem toHBRequest_none_iff_empty (dig : Bytes → Bytes) (obj : List (Str × JSVal)) :
    toHBRequest dig [] = .ok none
    ∧ (obj ≠ [] → ∀ r, toHBRequest dig obj = .ok r → r.isSome = true) := by
  constructor
  · rfl
  · intro hne r h
    unfold toHBRequest at h
    rcases hfe : jsSizeE obj * 4 + 16 with _ | f
    · omega
    · rw [hfe] at h
      have hie : obj.isEmpty = false := by
        cases obj with
        | nil => exact absurd rfl hne
        | cons a l => rfl
      simp only [toHBRequestFuel, hie, Bool.false_eq_true, if_false] at h
      obtain ⟨flattened, _, h⟩ := exceptBind_eq_ok h
      obtain ⟨⟨hs, bs⟩, _, h⟩ := exceptBind_eq_ok h
      cases bs with
      | nil =>
        injection h with h
        rw [← h]
        rfl
      | cons b1 brest =>
        cases brest with
        | nil =>
          obtain ⟨single, _, h⟩ := exceptBind_eq_ok h
          injection h with h
          rw [← h]
          rfl
        | cons b2 brest2 =>
          injection h with h
          rw [← h]
          rfl

/-- Witness for the C10 amended theorem at a concrete one-field map. -/
theorem toHBRequest_none_iff_empty_witness :
    (toHBRequest (fun _ => []) [] = .ok none)
    ∧ Option.isSome (some (⟨[("a".data, "x".data)], none⟩ : HBRequestOut)) = true :=
  ⟨(toHBRequest_none_iff_empty (fun _ => []) [("a".data, .str "x".data)]).1,
   (toHBRequest_none_iff_empty (fun _ => []) [("a".data, .str "x".data)]).2
     (List.cons_ne_nil _ _) (some ⟨[("a".data, "x".data)], none⟩) (by decide)⟩
